import Mathlib

/-!
Shallow embedding of the clidaw sequencer core (src/note.rs, src/scheduler.rs,
src/synth.rs, src/song.rs) and proofs about its specification claims.

Modelling conventions: Rust `f64` beat/duration/envelope arithmetic is embedded
as exact rational arithmetic (`ℚ`); oscillator phases and frequencies, which flow
through `sin` and `2^x`, are embedded as real numbers (`ℝ`).  Rust `u32` counter
arithmetic is embedded as `ℕ` with explicit `% 2^32` where wrapping could matter
(here `key_counter % 0x200` agrees with the wrapped value because `0x200`
divides `2^32`).  A Rust panic (out-of-bounds slice index) is embedded as
`Option.none`.
-/

namespace Clidaw

/-! ## Pitch model (src/note.rs) -/

/-- Musical note names, the 12 chromatic pitch classes (src/note.rs `NoteName`). -/
inductive NoteName where
  | C
  | CSharp
  | D
  | DSharp
  | E
  | F
  | FSharp
  | G
  | GSharp
  | A
  | ASharp
  | B
deriving DecidableEq, Repr

/-- Semitone offset within an octave, C=0 .. B=11 (src/note.rs `NoteName::semitone`). -/
def NoteName.semitone : NoteName → ℕ
  | .C => 0
  | .CSharp => 1
  | .D => 2
  | .DSharp => 3
  | .E => 4
  | .F => 5
  | .FSharp => 6
  | .G => 7
  | .GSharp => 8
  | .A => 9
  | .ASharp => 10
  | .B => 11

/-- MIDI note number of a note name at an octave (src/note.rs `NoteName::to_midi`).
The Rust code computes `(octave + 1) * 12 + semitone` in `u8`, hence the `% 256`. -/
def NoteName.to_midi (n : NoteName) (octave : ℕ) : ℕ :=
  ((octave + 1) * 12 + n.semitone) % 256

/-- Frequency in Hz, A4 = 440 Hz (src/note.rs `NoteName::to_freq`):
`440 * 2^((midi - 69) / 12)`. -/
noncomputable def NoteName.to_freq (n : NoteName) (octave : ℕ) : ℝ :=
  440 * (2 : ℝ) ^ (((n.to_midi octave : ℝ) - 69) / 12)

/-- A single note event: a pitch class plus an octave (src/note.rs `NoteEvent`). -/
structure NoteEvent where
  note : NoteName
  octave : ℕ
deriving DecidableEq, Repr

/-- An event in a pattern timeline (src/note.rs `Event`). -/
inductive Event where
  | Note (n : NoteEvent)
  | Chord (notes : List NoteEvent)
  | Rest (beats : ℚ)
  | BarLine
deriving DecidableEq, Repr

/-- Modelled from the spec: `event_duration` is referenced by the scheduler
(`use crate::note::event_duration`) but its definition is absent from the given
sources.  Spec section 3: "Duration per event: Note/Chord = 1 beat (fixed),
Rest = its stored beat count, BarLine = 0." -/
def event_duration : Event → ℚ
  | .Note _ => 1
  | .Chord _ => 1
  | .Rest beats => beats
  | .BarLine => 0

/-- Modelled from the spec: `Pattern` is referenced by the scheduler but absent
from the given sources.  Spec section 3: "Pattern — ordered sequence of Event
plus a loop flag, time signature, and default octave."  Only the event list is
consumed by the scheduler, so only it is modelled. -/
structure Pattern where
  events : List Event

/-- Modelled from the spec: `Pattern::length_beats` is called by the scheduler
but absent from the given sources.  Spec section 4.1: "advance the track cursor
by (pattern total length in beats x repeat count)" — the pattern total length in
beats is the sum of its events' durations. -/
def Pattern.length_beats (p : Pattern) : ℚ :=
  (p.events.map event_duration).sum

/-! ## Song structures (src/song.rs) -/

/-- One segment in a track: play this pattern `times` times (src/song.rs `Segment`).
Paths are modelled as strings. -/
structure Segment where
  notes_path : String
  times : ℕ

/-- One track: one instrument plus a sequence of segments (src/song.rs `SongTrack`). -/
structure SongTrack where
  instrument_path : String
  sequence : List Segment

/-- A song: tempo, time signature, tracks (src/song.rs `Song`). -/
structure Song where
  tempo : ℕ
  time_signature : ℕ × ℕ
  tracks : List SongTrack

/-! ## Commands and scheduled events (src/synth.rs `LiveCommand`, src/scheduler.rs) -/

/-- A command sent to the audio engine (src/synth.rs `LiveCommand`).  The Rust
`key: char` voice identifier is modelled as the character's codepoint (`ℕ`). -/
inductive LiveCommand where
  | NoteOn (track : ℕ) (key : ℕ) (freq : ℝ)
  | NoteOff (track : ℕ) (key : ℕ)
  | AllNotesOff
  | Shutdown

/-- One scheduled event: at this beat, send this command (src/scheduler.rs
`ScheduledEvent`). -/
structure ScheduledEvent where
  beat : ℚ
  command : LiveCommand

/-- Voice key for allocation counter `c` (src/scheduler.rs: private-use
codepoint `0xE000 + (key_counter % 0x200)`; `saturating_add` never saturates and
`char::from_u32` never fails on this range, and `u32` wraparound of the counter
does not change the value because `0x200` divides `2^32`). -/
def voiceKey (c : ℕ) : ℕ :=
  0xE000 + c % 0x200

/-- The NoteOn/NoteOff pair pushed for one sounding note: NoteOn at `beat`,
NoteOff at `beat + 1` (src/scheduler.rs `build_schedule`, Note/Chord arms). -/
noncomputable def noteOnOff (track : ℕ) (beat : ℚ) (c : ℕ) (n : NoteEvent) : List ScheduledEvent :=
  [⟨beat, .NoteOn track (voiceKey c) (n.note.to_freq n.octave)⟩,
   ⟨beat + 1, .NoteOff track (voiceKey c)⟩]

/-- Commands pushed for the constituent notes of a chord, threading the key
counter (src/scheduler.rs `build_schedule`, `Event::Chord` arm: per constituent
note a NoteOn then a NoteOff is pushed and the counter is incremented). -/
noncomputable def chordCommandsC (track : ℕ) (beat : ℚ) :
    List NoteEvent → ℕ → List ScheduledEvent × ℕ
  | [], c => ([], c)
  | n :: ns, c =>
    let rest := chordCommandsC track beat ns (c + 1)
    (noteOnOff track beat c n ++ rest.1, rest.2)

/-- Commands pushed for one pattern event, threading the key counter
(src/scheduler.rs `build_schedule`, the `match ev` statement). -/
noncomputable def eventCommandsC (track : ℕ) (beat : ℚ) (c : ℕ) :
    Event → List ScheduledEvent × ℕ
  | .Note n => (noteOnOff track beat c n, c + 1)
  | .Chord ns => chordCommandsC track beat ns c
  | .Rest _ => ([], c)
  | .BarLine => ([], c)

/-- One repetition's walk over a pattern's events: `eb` is the local beat offset
(`event_beat`), `c` the key counter (src/scheduler.rs `build_schedule`, the
`for ev in &pattern.events` loop; after each event the local offset advances by
`event_duration ev`). -/
noncomputable def walkEvents (track : ℕ) (trackBeat : ℚ) :
    List Event → ℚ → ℕ → List ScheduledEvent × ℕ
  | [], _, c => ([], c)
  | ev :: evs, eb, c =>
    let here := eventCommandsC track (trackBeat + eb) c ev
    let rest := walkEvents track trackBeat evs (eb + event_duration ev) here.2
    (here.1 ++ rest.1, rest.2)

/-- The repetitions of one segment's pattern: after each repetition the track
cursor advances by the pattern length (src/scheduler.rs `build_schedule`, the
`for _rep in 0..segment.times` loop). -/
noncomputable def walkReps (track : ℕ) (p : Pattern) :
    ℕ → ℚ → ℕ → List ScheduledEvent × ℚ × ℕ
  | 0, tb, c => ([], tb, c)
  | reps + 1, tb, c =>
    let here := walkEvents track tb p.events 0 c
    let rest := walkReps track p reps (tb + p.length_beats) here.2
    (here.1 ++ rest.1, rest.2)

/-- The resolved-pattern map (Rust `HashMap<PathBuf, Pattern>`), modelled as a
lookup function. -/
abbrev Patterns : Type := String → Option Pattern

/-- Walk of one track's segments, failing on the first segment whose pattern is
not in the map (src/scheduler.rs `build_schedule`, the `for segment in
&track.sequence` loop and its `ok_or_else` error). -/
noncomputable def walkSegments (track : ℕ) (pats : Patterns) :
    List Segment → ℚ → ℕ → Except String (List ScheduledEvent × ℚ × ℕ)
  | [], tb, c => .ok ([], tb, c)
  | seg :: rest, tb, c =>
    match pats seg.notes_path with
    | none => .error ("pattern not loaded: " ++ seg.notes_path)
    | some p =>
      let here := walkReps track p seg.times tb c
      (walkSegments track pats rest here.2.1 here.2.2).map
        (fun tail => (here.1 ++ tail.1, tail.2))

/-- Walk of the song's tracks, index-enumerated; each track restarts its beat
cursor and key counter at 0 (src/scheduler.rs `build_schedule`, the
`for (track_idx, track) in song.tracks.iter().enumerate()` loop). -/
noncomputable def walkTracks (pats : Patterns) : ℕ → List SongTrack → Except String (List ScheduledEvent)
  | _, [] => .ok []
  | idx, t :: ts =>
    match walkSegments idx pats t.sequence 0 0 with
    | .error e => .error e
    | .ok here =>
      match walkTracks pats (idx + 1) ts with
      | .error e => .error e
      | .ok tail => .ok (here.1 ++ tail)

/-- The event list accumulated by `build_schedule` before the final sort
(src/scheduler.rs `build_schedule`). -/
noncomputable def buildScheduleEvents (song : Song) (pats : Patterns) :
    Except String (List ScheduledEvent) :=
  walkTracks pats 0 song.tracks

/-- The final sort of `build_schedule`: Rust's stable `sort_by` with comparator
`a.beat.partial_cmp(&b.beat).unwrap_or(Equal)`, i.e. a stable sort by beat
(src/scheduler.rs `build_schedule`, last statement). -/
def sortEvents (l : List ScheduledEvent) : List ScheduledEvent :=
  List.insertionSort (fun a b => a.beat ≤ b.beat) l

/-- Build a sorted list of (beat, command) for the entire song
(src/scheduler.rs `build_schedule`). -/
noncomputable def build_schedule (song : Song) (pats : Patterns) :
    Except String (List ScheduledEvent) :=
  (buildScheduleEvents song pats).map sortEvents

/-! ## Specification-side emission (follows the spec's words, section 4.1)

These definitions restate the scheduler's contract as the spec phrases it: each
event independently yields a command list from the track cursor, the local
offset and the allocation counter, with offsets and counters obtained by
accumulating `event_duration` and per-event allocation counts; the walk result
is the concatenation of those lists. -/

/-- Number of voice ids an event allocates: one per Note, one per chord
constituent, none for Rest/BarLine. -/
def allocCount : Event → ℕ
  | .Note _ => 1
  | .Chord ns => ns.length
  | .Rest _ => 0
  | .BarLine => 0

/-- Total voice ids allocated by one repetition of a pattern. -/
def patternAlloc (p : Pattern) : ℕ :=
  (p.events.map allocCount).sum

/-- Follows the spec's words: for every Note, one NoteOn at (track cursor +
local offset) and one NoteOff one beat later; for every Chord, one such pair per
constituent note, all sharing the same timing, the i-th with voice id allocated
at counter `c + i`; Rest and BarLine emit no commands. -/
noncomputable def specEventCommands (track : ℕ) (beat : ℚ) (c : ℕ) : Event → List ScheduledEvent
  | .Note n => noteOnOff track beat c n
  | .Chord ns =>
    ((List.range ns.length).zip ns).flatMap fun q => noteOnOff track beat (c + q.1) q.2
  | .Rest _ => []
  | .BarLine => []

/-- Follows the spec's words: walk the pattern's events left to right with a
local beat offset, emitting each event's commands at (cursor + offset) and then
advancing the offset by the event's duration and the counter by its allocation
count. -/
noncomputable def specPatternCommands (track : ℕ) (cursor : ℚ) :
    List Event → ℚ → ℕ → List ScheduledEvent
  | [], _, _ => []
  | ev :: evs, off, c =>
    specEventCommands track (cursor + off) c ev ++
      specPatternCommands track cursor evs (off + event_duration ev) (c + allocCount ev)

/-- Follows the spec's words: repeat the pattern's event walk `times` times,
each repetition starting its local offset at 0 and advancing the cursor by the
pattern's total length. -/
noncomputable def specRepCommands (track : ℕ) (p : Pattern) :
    ℕ → ℚ → ℕ → List ScheduledEvent
  | 0, _, _ => []
  | k + 1, cursor, c =>
    specPatternCommands track cursor p.events 0 c ++
      specRepCommands track p k (cursor + p.length_beats) (c + patternAlloc p)

/-- Follows the spec's words: for each segment resolve its pattern (failing with
an error naming the unresolved path), emit all its repetitions, and advance the
cursor by (pattern total length in beats x repeat count). -/
noncomputable def specSegmentCommands (track : ℕ) (pats : Patterns) :
    List Segment → ℚ → ℕ → Except String (List ScheduledEvent)
  | [], _, _ => .ok []
  | seg :: rest, cursor, c =>
    match pats seg.notes_path with
    | none => .error ("pattern not loaded: " ++ seg.notes_path)
    | some p =>
      (specSegmentCommands track pats rest (cursor + p.length_beats * (seg.times : ℚ))
          (c + patternAlloc p * seg.times)).map
        (fun tail => specRepCommands track p seg.times cursor c ++ tail)

/-- Follows the spec's words: tracks contribute independently, in order, each
starting its own cursor and counter at 0. -/
noncomputable def specTrackCommands (pats : Patterns) :
    ℕ → List SongTrack → Except String (List ScheduledEvent)
  | _, [] => .ok []
  | i, t :: ts =>
    match specSegmentCommands i pats t.sequence 0 0 with
    | .error e => .error e
    | .ok here =>
      match specTrackCommands pats (i + 1) ts with
      | .error e => .error e
      | .ok tail => .ok (here ++ tail)

/-- Specification-side emission for a whole song. -/
noncomputable def specScheduleEvents (song : Song) (pats : Patterns) :
    Except String (List ScheduledEvent) :=
  specTrackCommands pats 0 song.tracks

/-! ## C1: the imperative walk equals the specification-side emission -/

theorem chordCommandsC_eq (track : ℕ) (beat : ℚ) :
    ∀ (ns : List NoteEvent) (c : ℕ),
      chordCommandsC track beat ns c =
        (((List.range ns.length).zip ns).flatMap fun q => noteOnOff track beat (c + q.1) q.2,
          c + ns.length) := by
  intro ns
  induction ns with
  | nil => intro c; simp [chordCommandsC]
  | cons n ns ih =>
    intro c
    simp only [chordCommandsC, ih (c + 1), List.length_cons, List.range_succ_eq_map,
      List.zip_cons_cons, List.flatMap_cons, List.zip_map_left, List.flatMap_map]
    refine Prod.ext ?_ (by omega)
    simp only [Nat.add_zero]
    have h : ∀ q : ℕ × NoteEvent,
        noteOnOff track beat (c + (Prod.map Nat.succ id q).1) (Prod.map Nat.succ id q).2 =
          noteOnOff track beat (c + 1 + q.1) q.2 := by
      rintro ⟨i, m⟩
      simp only [Prod.map_apply, id]
      rw [Nat.succ_eq_add_one, show c + (i + 1) = c + 1 + i from by omega]
    simp only [h]

theorem eventCommandsC_eq (track : ℕ) (beat : ℚ) (c : ℕ) (ev : Event) :
    eventCommandsC track beat c ev =
      (specEventCommands track beat c ev, c + allocCount ev) := by
  cases ev with
  | Note n => rfl
  | Chord ns => simpa [eventCommandsC, specEventCommands, allocCount] using
      chordCommandsC_eq track beat ns c
  | Rest b => rfl
  | BarLine => rfl

theorem walkEvents_eq (track : ℕ) (trackBeat : ℚ) :
    ∀ (evs : List Event) (eb : ℚ) (c : ℕ),
      walkEvents track trackBeat evs eb c =
        (specPatternCommands track trackBeat evs eb c, c + (evs.map allocCount).sum) := by
  intro evs
  induction evs with
  | nil => intro eb c; simp [walkEvents, specPatternCommands]
  | cons ev evs ih =>
    intro eb c
    simp only [walkEvents, eventCommandsC_eq, specPatternCommands, ih, List.map_cons,
      List.sum_cons]
    exact Prod.ext rfl (by omega)

theorem walkReps_eq (track : ℕ) (p : Pattern) :
    ∀ (k : ℕ) (tb : ℚ) (c : ℕ),
      walkReps track p k tb c =
        (specRepCommands track p k tb c, tb + p.length_beats * (k : ℚ), c + patternAlloc p * k) := by
  intro k
  induction k with
  | zero => intro tb c; simp [walkReps, specRepCommands]
  | succ k ih =>
    intro tb c
    simp only [walkReps, walkEvents_eq, specRepCommands, ih]
    refine Prod.ext rfl (Prod.ext ?_ ?_)
    · push_cast
      ring
    · simp only [patternAlloc]
      ring

theorem walkSegments_fst (track : ℕ) (pats : Patterns) :
    ∀ (segs : List Segment) (tb : ℚ) (c : ℕ),
      (walkSegments track pats segs tb c).map Prod.fst =
        specSegmentCommands track pats segs tb c := by
  intro segs
  induction segs with
  | nil => intro tb c; rfl
  | cons seg rest ih =>
    intro tb c
    simp only [walkSegments, specSegmentCommands]
    cases hp : pats seg.notes_path with
    | none => rfl
    | some p =>
      simp only [walkReps_eq, ← ih]
      cases walkSegments track pats rest (tb + p.length_beats * (seg.times : ℚ))
          (c + patternAlloc p * seg.times) with
      | error e => rfl
      | ok tail => rfl

theorem walkTracks_eq (pats : Patterns) :
    ∀ (idx : ℕ) (ts : List SongTrack),
      walkTracks pats idx ts = specTrackCommands pats idx ts := by
  intro idx ts
  induction ts generalizing idx with
  | nil => rfl
  | cons t ts ih =>
    simp only [walkTracks, specTrackCommands, ← walkSegments_fst, ← ih]
    cases walkSegments idx pats t.sequence 0 0 with
    | error e => rfl
    | ok here =>
      cases walkTracks pats (idx + 1) ts with
      | error e => rfl
      | ok tail => rfl

/-- C1 (pattern-walk emission): the event list accumulated by `build_schedule`
is exactly the specification-side emission: per repetition of a segment's
pattern, each Note yields one NoteOn at (track cursor + local offset) and one
NoteOff one beat later; each Chord yields one such pair per constituent note,
all sharing those beats, the i-th pair with its own voice id (allocation counter
`c + i`); Rest and BarLine yield no commands while still advancing the local
offset by their duration. -/
theorem C1_pattern_walk_emission (song : Song) (pats : Patterns) :
    buildScheduleEvents song pats = specScheduleEvents song pats :=
  walkTracks_eq pats 0 song.tracks

/-! ## C2: ordering and stability of the final sort -/

instance : IsTotal ScheduledEvent (fun a b => a.beat ≤ b.beat) :=
  ⟨fun a b => le_total a.beat b.beat⟩

instance : IsTrans ScheduledEvent (fun a b => a.beat ≤ b.beat) :=
  ⟨fun _ _ _ => le_trans⟩

theorem filter_orderedInsert_beat (q : ℚ) (x : ScheduledEvent) :
    ∀ l : List ScheduledEvent,
      (List.orderedInsert (fun a b => a.beat ≤ b.beat) x l).filter (fun e => e.beat = q) =
        if x.beat = q then x :: l.filter (fun e => e.beat = q)
        else l.filter (fun e => e.beat = q) := by
  intro l
  induction l with
  | nil =>
    by_cases hq : x.beat = q <;> simp [List.orderedInsert, List.filter_cons, hq]
  | cons y ys ih =>
    rw [List.orderedInsert]
    by_cases hxy : x.beat ≤ y.beat
    · rw [if_pos hxy]
      by_cases hq : x.beat = q <;> simp [List.filter_cons, hq]
    · rw [if_neg hxy]
      by_cases hq : x.beat = q
      · have hyq : ¬(y.beat = q) := by
          intro h
          exact hxy (le_of_eq (hq.trans h.symm))
        simp [List.filter_cons, hq, hyq, ih]
      · by_cases hyq : y.beat = q <;> simp [List.filter_cons, hq, hyq, ih]

theorem filter_sortEvents (q : ℚ) :
    ∀ l : List ScheduledEvent,
      (sortEvents l).filter (fun e => e.beat = q) = l.filter (fun e => e.beat = q) := by
  intro l
  induction l with
  | nil => rfl
  | cons x xs ih =>
    show (List.orderedInsert _ x (List.insertionSort _ xs)).filter _ = _
    rw [filter_orderedInsert_beat]
    by_cases hq : x.beat = q
    · rw [if_pos hq]
      show x :: (sortEvents xs).filter _ = _
      rw [ih, List.filter_cons]
      simp [hq]
    · rw [if_neg hq]
      show (sortEvents xs).filter _ = _
      rw [ih, List.filter_cons]
      simp [hq]

/-- C2 (schedule ordering): whenever the walk succeeds, `build_schedule` returns
the stable sort of the emitted list: adjacent beats are non-decreasing, and for
every beat value the events carrying it appear in exactly their emission order
(the filter of the output at any beat equals the filter of the emission-ordered
input). -/
theorem C2_schedule_ordering (song : Song) (pats : Patterns) (es : List ScheduledEvent)
    (h : buildScheduleEvents song pats = .ok es) :
    build_schedule song pats = .ok (sortEvents es) ∧
      List.Chain' (fun a b => a.beat ≤ b.beat) (sortEvents es) ∧
      ∀ q : ℚ, (sortEvents es).filter (fun e => e.beat = q) = es.filter (fun e => e.beat = q) := by
  refine ⟨?_, ?_, fun q => filter_sortEvents q es⟩
  · rw [build_schedule, h]
    rfl
  · exact List.chain'_iff_pairwise.mpr (List.sorted_insertionSort _ es)

/-- Fixture: a three-event pattern (note, half-beat rest, note). -/
def patFix : Pattern := ⟨[.Note ⟨.C, 4⟩, .Rest (1 / 2), .Note ⟨.E, 4⟩]⟩

/-- Fixture: a one-track song playing `patFix` once. -/
def songFix : Song := ⟨120, (4, 4), [⟨"lead.instr", [⟨"a.notes", 1⟩]⟩]⟩

/-- Fixture: the pattern map resolving exactly "a.notes". -/
def patsFix : Patterns := fun s => if s = "a.notes" then some patFix else none

/-- Fixture: the event list emitted for `songFix`. -/
noncomputable def esFix : List ScheduledEvent :=
  (buildScheduleEvents songFix patsFix).toOption.getD []

theorem C2_schedule_ordering_witness :
    build_schedule songFix patsFix = .ok (sortEvents esFix) ∧
      List.Chain' (fun a b => a.beat ≤ b.beat) (sortEvents esFix) :=
  ⟨(C2_schedule_ordering songFix patsFix esFix rfl).1,
   (C2_schedule_ordering songFix patsFix esFix rfl).2.1⟩

/-! ## C3: missing-pattern error -/

/-- All pattern paths referenced by the song's segments, in walk order. -/
def referencedPaths (song : Song) : List String :=
  song.tracks.flatMap fun t => t.sequence.map Segment.notes_path

/-- The first referenced pattern path missing from the map, in walk order. -/
def firstMissing (song : Song) (pats : Patterns) : Option String :=
  (referencedPaths song).find? fun p => (pats p).isNone

theorem walkSegments_missing (track : ℕ) (pats : Patterns) :
    ∀ (segs : List Segment) (tb : ℚ) (c : ℕ),
      match (segs.map Segment.notes_path).find? (fun p => (pats p).isNone) with
      | none => ∃ out, walkSegments track pats segs tb c = .ok out
      | some p => walkSegments track pats segs tb c = .error ("pattern not loaded: " ++ p) := by
  intro segs
  induction segs with
  | nil => intro tb c; exact ⟨_, rfl⟩
  | cons seg rest ih =>
    intro tb c
    simp only [List.map_cons, List.find?_cons]
    cases hp : pats seg.notes_path with
    | none =>
      simp only [hp, Option.isNone_none, cond_true]
      simp only [walkSegments, hp]
    | some p =>
      simp only [hp, Option.isNone_some, cond_false]
      have h := ih (walkReps track p seg.times tb c).2.1 (walkReps track p seg.times tb c).2.2
      cases hfind : (rest.map Segment.notes_path).find? (fun q => (pats q).isNone) with
      | none =>
        rw [hfind] at h
        obtain ⟨out, hout⟩ := h
        exact ⟨_, by simp only [walkSegments, hp, hout, Except.map]; rfl⟩
      | some q =>
        rw [hfind] at h
        simp only [walkSegments, hp, h, Except.map]

theorem walkTracks_missing (pats : Patterns) :
    ∀ (ts : List SongTrack) (idx : ℕ),
      match (ts.flatMap fun t => t.sequence.map Segment.notes_path).find?
          (fun p => (pats p).isNone) with
      | none => ∃ out, walkTracks pats idx ts = .ok out
      | some p => walkTracks pats idx ts = .error ("pattern not loaded: " ++ p) := by
  intro ts
  induction ts with
  | nil => intro idx; exact ⟨_, rfl⟩
  | cons t ts ih =>
    intro idx
    simp only [List.flatMap_cons, List.find?_append]
    have hseg := walkSegments_missing idx pats t.sequence 0 0
    cases hfind : (t.sequence.map Segment.notes_path).find? (fun p => (pats p).isNone) with
    | none =>
      rw [hfind] at hseg
      obtain ⟨out, hout⟩ := hseg
      simp only [Option.none_or]
      have hrest := ih (idx + 1)
      cases hfind2 : (ts.flatMap fun t => t.sequence.map Segment.notes_path).find?
          (fun p => (pats p).isNone) with
      | none =>
        rw [hfind2] at hrest
        obtain ⟨out2, hout2⟩ := hrest
        exact ⟨_, by simp only [walkTracks, hout, hout2]; rfl⟩
      | some q =>
        rw [hfind2] at hrest
        simp only [walkTracks, hout, hrest]
    | some p =>
      rw [hfind] at hseg
      simp only [Option.or_some]
      simp only [walkTracks, hseg]

/-- C3 (missing-pattern error): if some segment of some track references a path
absent from the resolved map, `build_schedule` returns an error naming the first
such path in walk order and no schedule at all; if every referenced pattern is
present, it succeeds (and in particular returns no such error).  `firstMissing`
is `none` exactly when every referenced path resolves. -/
theorem C3_missing_pattern (song : Song) (pats : Patterns) :
    (firstMissing song pats = none → ∃ es, build_schedule song pats = .ok es) ∧
      (∀ p, firstMissing song pats = some p →
        pats p = none ∧ p ∈ referencedPaths song ∧
          build_schedule song pats = .error ("pattern not loaded: " ++ p)) ∧
      (firstMissing song pats = none ↔ ∀ p ∈ referencedPaths song, (pats p).isSome) := by
  have h := walkTracks_missing pats song.tracks 0
  refine ⟨?_, ?_, ?_⟩
  · intro hnone
    rw [firstMissing, referencedPaths] at hnone
    rw [hnone] at h
    obtain ⟨out, hout⟩ := h
    exact ⟨sortEvents out, by rw [build_schedule, buildScheduleEvents, hout]; rfl⟩
  · intro p hp
    rw [firstMissing, referencedPaths] at hp
    refine ⟨?_, ?_, ?_⟩
    · have := List.find?_some hp
      simpa [Option.isNone_iff_eq_none] using this
    · exact List.mem_of_find?_eq_some hp
    · rw [hp] at h
      rw [build_schedule, buildScheduleEvents, h]
      rfl
  · rw [firstMissing, List.find?_eq_none]
    constructor
    · intro hall p hmem
      have := hall p hmem
      simpa [Option.isNone_iff_eq_none, Option.isSome_iff_ne_none] using this
    · intro hall p hmem
      have := hall p hmem
      simp only [Option.isNone_iff_eq_none]
      intro hcontra
      rw [hcontra] at this
      exact Bool.noConfusion this

/-- Fixture: the empty pattern map. -/
def patsNone : Patterns := fun _ => none

theorem C3_missing_pattern_witness :
    build_schedule songFix patsNone = .error "pattern not loaded: a.notes" ∧
      patsNone "a.notes" = none :=
  ⟨(((C3_missing_pattern songFix patsNone).2.1 "a.notes" rfl)).2.2,
   (((C3_missing_pattern songFix patsNone).2.1 "a.notes" rfl)).1⟩

/-! ## C9: pitch mapping -/

theorem semitone_le (n : NoteName) : n.semitone ≤ 11 := by
  cases n <;> simp [NoteName.semitone]

theorem to_midi_eq (n : NoteName) (oct : ℕ) (h : oct ≤ 8) :
    NoteName.to_midi n oct = (oct + 1) * 12 + n.semitone := by
  rw [NoteName.to_midi]
  exact Nat.mod_eq_of_lt (by have := semitone_le n; omega)

/-- C9 (pitch mapping): for octaves 0..8 the MIDI number is
`(octave+1)*12 + semitone` (C4 = 60), A4 has frequency exactly 440 Hz, and
frequency is strictly monotone in `octave*12 + semitone`. -/
theorem C9_pitch_mapping :
    (∀ (n : NoteName) (oct : ℕ), oct ≤ 8 →
        NoteName.to_midi n oct = (oct + 1) * 12 + n.semitone) ∧
      NoteName.to_midi .C 4 = 60 ∧
      NoteName.to_freq .A 4 = 440 ∧
      ∀ (n₁ : NoteName) (o₁ : ℕ) (n₂ : NoteName) (o₂ : ℕ), o₁ ≤ 8 → o₂ ≤ 8 →
        o₁ * 12 + n₁.semitone < o₂ * 12 + n₂.semitone →
        NoteName.to_freq n₁ o₁ < NoteName.to_freq n₂ o₂ := by
  refine ⟨to_midi_eq, rfl, ?_, ?_⟩
  · have h0 : (((NoteName.to_midi .A 4 : ℕ) : ℝ) - 69) / 12 = 0 := by
      norm_num [NoteName.to_midi, NoteName.semitone]
    rw [NoteName.to_freq, h0, Real.rpow_zero]
    norm_num
  · intro n₁ o₁ n₂ o₂ h₁ h₂ hlt
    rw [NoteName.to_freq, NoteName.to_freq, to_midi_eq n₁ o₁ h₁, to_midi_eq n₂ o₂ h₂]
    have hm : ((o₁ + 1) * 12 + n₁.semitone : ℕ) < (o₂ + 1) * 12 + n₂.semitone := by omega
    have hexp : (((o₁ + 1) * 12 + n₁.semitone : ℕ) : ℝ) - 69 <
        (((o₂ + 1) * 12 + n₂.semitone : ℕ) : ℝ) - 69 := by
      have : (((o₁ + 1) * 12 + n₁.semitone : ℕ) : ℝ) <
          (((o₂ + 1) * 12 + n₂.semitone : ℕ) : ℝ) := by exact_mod_cast hm
      linarith
    have hdiv : ((((o₁ + 1) * 12 + n₁.semitone : ℕ) : ℝ) - 69) / 12 <
        ((((o₂ + 1) * 12 + n₂.semitone : ℕ) : ℝ) - 69) / 12 :=
      (div_lt_div_iff_of_pos_right (by norm_num)).mpr hexp
    have hpow := (Real.rpow_lt_rpow_left_iff one_lt_two).mpr hdiv
    exact mul_lt_mul_of_pos_left hpow (by norm_num)

theorem C9_pitch_mapping_witness :
    NoteName.to_midi .C 4 = 60 ∧ NoteName.to_freq .C 4 < NoteName.to_freq .A 4 :=
  ⟨C9_pitch_mapping.1 .C 4 (by norm_num),
   C9_pitch_mapping.2.2.2 .C 4 .A 4 (by norm_num) (by norm_num) (by decide)⟩

/-! ## Audio engine state (src/synth.rs) -/

/-- ADSR envelope parameters (src/synth.rs `Adsr`): times in seconds, sustain a
level in `[0,1]`. -/
structure Adsr where
  attack : ℚ
  decay : ℚ
  sustain : ℚ
  release : ℚ

/-- Default ADSR (src/synth.rs `impl Default for Adsr`). -/
def defaultAdsr : Adsr :=
  ⟨1 / 100, 1 / 10, 7 / 10, 1 / 4⟩

/-- Envelope stage for one voice (src/synth.rs `EnvStage`). -/
inductive EnvStage where
  | Idle
  | Attack
  | Decay
  | Sustain
  | Release
deriving DecidableEq, Repr

/-- Current envelope level from voice state and ADSR params
(src/synth.rs `envelope_level`). -/
def envelope_level (stage : EnvStage) (phase : ℚ) (release_start : ℚ) (adsr : Adsr) : ℚ :=
  match stage with
  | .Idle => 0
  | .Attack => if adsr.attack ≤ 0 then 1 else min (phase / adsr.attack) 1
  | .Decay =>
    if adsr.decay ≤ 0 then adsr.sustain
    else 1 + min (phase / adsr.decay) 1 * (adsr.sustain - 1)
  | .Sustain => adsr.sustain
  | .Release =>
    if adsr.release ≤ 0 then 0
    else release_start * (1 - min (phase / adsr.release) 1)

/-- A single playing voice with ADSR envelope (src/synth.rs `Voice`). -/
structure Voice where
  track : ℕ
  key : ℕ
  freq : ℝ
  phase : ℝ
  env_stage : EnvStage
  env_phase : ℚ
  release_start_level : ℚ

/-- Peak amplitude of the oscillator (src/synth.rs `PEAK_AMP`). -/
noncomputable def PEAK_AMP : ℝ := 3 / 10

/-- The voice pushed by a NoteOn that found no live match (src/synth.rs NoteOn
arm, the `voices.push` call). -/
noncomputable def freshVoice (track key : ℕ) (freq : ℝ) : Voice :=
  ⟨track, key, freq, 0, .Attack, 0, 0⟩

/-- In-place retrigger of an existing voice by NoteOn (src/synth.rs NoteOn arm,
the `find` branch): frequency updated, envelope restarted, oscillator phase kept. -/
noncomputable def retrigger (freq : ℝ) (v : Voice) : Voice :=
  { v with freq := freq, env_stage := .Attack, env_phase := 0, release_start_level := 0 }

/-- NoteOn: retrigger the first live voice with this (track, key), else push a
fresh voice at the end (src/synth.rs NoteOn arm). -/
noncomputable def noteOnVoices (track key : ℕ) (freq : ℝ) : List Voice → List Voice
  | [] => [freshVoice track key freq]
  | v :: vs =>
    if v.track = track ∧ v.key = key then retrigger freq v :: vs
    else v :: noteOnVoices track key freq vs

/-- Move a voice to Release, capturing the current instantaneous envelope level
as release-start level and resetting stage-elapsed time (src/synth.rs NoteOff
and AllNotesOff arms, body of the `if`). -/
def releaseVoice (adsr : Adsr) (v : Voice) : Voice :=
  { v with
    release_start_level := envelope_level v.env_stage v.env_phase v.release_start_level adsr,
    env_stage := .Release,
    env_phase := 0 }

/-- Per-voice effect of NoteOff (src/synth.rs NoteOff arm): voices matching
(track, key) and not Idle are released using their track's ADSR; the `adsrs`
lookup panics (`none`) when the voice's track is out of range. -/
def noteOffVoice (adsrs : List Adsr) (track key : ℕ) (v : Voice) : Option Voice :=
  if v.track = track ∧ v.key = key ∧ v.env_stage ≠ .Idle then
    (adsrs[v.track]?).map fun a => releaseVoice a v
  else some v

/-- Per-voice effect of AllNotesOff (src/synth.rs AllNotesOff arm). -/
def allOffVoice (adsrs : List Adsr) (v : Voice) : Option Voice :=
  if v.env_stage ≠ .Idle then (adsrs[v.track]?).map fun a => releaseVoice a v
  else some v

/-- Application of one drained command to the voice pool (src/synth.rs, the
`match cmd` inside the command drain).  `none` models a Rust panic. -/
noncomputable def applyCommand (adsrs : List Adsr) (voices : List Voice) : LiveCommand → Option (List Voice)
  | .NoteOn track key freq => some (noteOnVoices track key freq voices)
  | .NoteOff track key => voices.mapM (noteOffVoice adsrs track key)
  | .AllNotesOff => voices.mapM (allOffVoice adsrs)
  | .Shutdown => some []

/-- Per-sample envelope advance of one voice (src/synth.rs, the `match
voice.env_stage` inside the sample loop): stage-elapsed time advances by `dt`
except in Idle/Sustain; Attack and Decay reset the elapsed time on transition,
Release does not. -/
def stepEnvelope (adsr : Adsr) (dt : ℚ) (v : Voice) : Voice :=
  match v.env_stage with
  | .Idle => v
  | .Attack =>
    let p := v.env_phase + dt
    if adsr.attack ≤ p then { v with env_stage := .Decay, env_phase := 0 }
    else { v with env_phase := p }
  | .Decay =>
    let p := v.env_phase + dt
    if adsr.decay ≤ p then { v with env_stage := .Sustain, env_phase := 0 }
    else { v with env_phase := p }
  | .Sustain => v
  | .Release =>
    let p := v.env_phase + dt
    if adsr.release ≤ p then { v with env_stage := .Idle, env_phase := p }
    else { v with env_phase := p }

/-- Per-sample processing of one voice (src/synth.rs, body of the
`for voice in voices.iter_mut()` loop): look up the track's ADSR (panic —
`none` — if out of range), advance the envelope, and if the resulting level
exceeds the `0.0001` cut-off emit `sin(2π·phase)·PEAK_AMP·level` and advance
the oscillator phase by `freq/sample_rate`, wrapping at 1. -/
noncomputable def renderVoice (adsrs : List Adsr) (sampleRate : ℚ) (v : Voice) :
    Option (Voice × ℝ) :=
  match adsrs[v.track]? with
  | none => none
  | some adsr =>
    let v1 := stepEnvelope adsr (1 / sampleRate) v
    let level := envelope_level v1.env_stage v1.env_phase v1.release_start_level adsr
    if 1 / 10000 < level then
      let contrib := Real.sin (v1.phase * (2 * Real.pi)) * PEAK_AMP * (level : ℝ)
      let p := v1.phase + v1.freq / (sampleRate : ℝ)
      some ({ v1 with phase := if 1 ≤ p then p - 1 else p }, contrib)
    else
      some (v1, 0)

/-- The per-sample voice loop, accumulating the sample value (src/synth.rs, the
`for voice in voices.iter_mut()` loop with `value +=`). -/
noncomputable def renderVoicesLoop (adsrs : List Adsr) (sampleRate : ℚ) :
    List Voice → ℝ → Option (List Voice × ℝ)
  | [], acc => some ([], acc)
  | v :: vs, acc =>
    match renderVoice adsrs sampleRate v with
    | none => none
    | some (v1, contrib) =>
      (renderVoicesLoop adsrs sampleRate vs (acc + contrib)).map fun r => (v1 :: r.1, r.2)

/-- One output sample (src/synth.rs, one iteration of `for sample in
data.iter_mut()`): process every voice, then retain only non-Idle voices. -/
noncomputable def renderSample (adsrs : List Adsr) (sampleRate : ℚ) (voices : List Voice) :
    Option (List Voice × ℝ) :=
  (renderVoicesLoop adsrs sampleRate voices 0).map
    fun r => (r.1.filter (fun v => v.env_stage ≠ .Idle), r.2)

/-- A run of `n` consecutive output samples (src/synth.rs, the sample loop over
the buffer). -/
noncomputable def renderSamples (adsrs : List Adsr) (sampleRate : ℚ) :
    ℕ → List Voice → Option (List Voice × List ℝ)
  | 0, vs => some (vs, [])
  | n + 1, vs =>
    match renderSample adsrs sampleRate vs with
    | none => none
    | some (vs1, x) =>
      (renderSamples adsrs sampleRate n vs1).map fun r => (r.1, x :: r.2)

/-- The command drain at the start of a tick (src/synth.rs, the `while let
Ok(cmd) = cmd_rx.try_recv()` loop): commands applied in arrival order; Shutdown
clears the pool and returns early (the `Bool` flags it). -/
noncomputable def drainCommands (adsrs : List Adsr) :
    List LiveCommand → List Voice → Option (List Voice × Bool)
  | [], vs => some (vs, false)
  | .Shutdown :: _, _ => some ([], true)
  | .NoteOn track key freq :: cmds, vs =>
    match applyCommand adsrs vs (.NoteOn track key freq) with
    | none => none
    | some vs1 => drainCommands adsrs cmds vs1
  | .NoteOff track key :: cmds, vs =>
    match applyCommand adsrs vs (.NoteOff track key) with
    | none => none
    | some vs1 => drainCommands adsrs cmds vs1
  | .AllNotesOff :: cmds, vs =>
    match applyCommand adsrs vs .AllNotesOff with
    | none => none
    | some vs1 => drainCommands adsrs cmds vs1

/-! ## C5: release capture -/

theorem mapM_eq_map_of_some {α β : Type} (f : α → Option β) (g : α → β) :
    ∀ l : List α, (∀ x ∈ l, f x = some (g x)) → l.mapM f = some (l.map g) := by
  intro l
  induction l with
  | nil => intro _; rfl
  | cons x xs ih =>
    intro h
    rw [List.mapM_cons, h x (List.mem_cons_self x xs),
      ih fun y hy => h y (List.mem_cons_of_mem x hy)]
    rfl

theorem map_eq_self_of_eq {α : Type} (f : α → α) :
    ∀ l : List α, (∀ x ∈ l, f x = x) → l.map f = l := by
  intro l
  induction l with
  | nil => intro _; rfl
  | cons x xs ih =>
    intro h
    rw [List.map_cons, h x (List.mem_cons_self x xs),
      ih fun y hy => h y (List.mem_cons_of_mem x hy)]

/-- C5 (release capture): on an engine state whose voices all carry in-range
track indices, NoteOff releases exactly the matching non-Idle voices — each
captures its current instantaneous envelope level (not the sustain level) as
release-start level, resets stage-elapsed time to 0 and moves to Release — and
leaves every other voice unchanged; when no live non-Idle voice matches, the
state is unchanged.  AllNotesOff does the same to every non-Idle voice, and a
voice released out of Sustain captures exactly the sustain level. -/
theorem C5_release_capture (adsrs : List Adsr) (voices : List Voice) (track key : ℕ)
    (h : ∀ v ∈ voices, v.track < adsrs.length) :
    (applyCommand adsrs voices (.NoteOff track key) =
        some (voices.map fun v =>
          match adsrs[v.track]? with
          | some a =>
            if v.track = track ∧ v.key = key ∧ v.env_stage ≠ .Idle then releaseVoice a v else v
          | none => v)) ∧
      (applyCommand adsrs voices .AllNotesOff =
        some (voices.map fun v =>
          match adsrs[v.track]? with
          | some a => if v.env_stage ≠ .Idle then releaseVoice a v else v
          | none => v)) ∧
      ((∀ v ∈ voices, ¬(v.track = track ∧ v.key = key ∧ v.env_stage ≠ .Idle)) →
        applyCommand adsrs voices (.NoteOff track key) = some voices) ∧
      ∀ (a : Adsr) (v : Voice),
        (releaseVoice a v).env_stage = .Release ∧ (releaseVoice a v).env_phase = 0 ∧
          (releaseVoice a v).release_start_level =
            envelope_level v.env_stage v.env_phase v.release_start_level a ∧
          (v.env_stage = .Sustain → (releaseVoice a v).release_start_level = a.sustain) := by
  have hoff : applyCommand adsrs voices (.NoteOff track key) =
      some (voices.map fun v =>
        match adsrs[v.track]? with
        | some a =>
          if v.track = track ∧ v.key = key ∧ v.env_stage ≠ .Idle then releaseVoice a v else v
        | none => v) := by
    refine mapM_eq_map_of_some _ _ voices fun v hv => ?_
    have ha : adsrs[v.track]? = some (adsrs.get ⟨v.track, h v hv⟩) :=
      List.getElem?_eq_getElem (h v hv)
    rw [noteOffVoice, ha]
    by_cases hc : v.track = track ∧ v.key = key ∧ v.env_stage ≠ .Idle
    · simp [hc]
    · simp [hc]
  refine ⟨hoff, ?_, ?_, ?_⟩
  · refine mapM_eq_map_of_some _ _ voices fun v hv => ?_
    have ha : adsrs[v.track]? = some (adsrs.get ⟨v.track, h v hv⟩) :=
      List.getElem?_eq_getElem (h v hv)
    rw [allOffVoice, ha]
    by_cases hc : v.env_stage ≠ .Idle
    · simp [hc]
    · simp [hc]
  · intro hnone
    rw [hoff]
    congr 1
    refine map_eq_self_of_eq _ voices fun v hv => ?_
    have ha : adsrs[v.track]? = some (adsrs.get ⟨v.track, h v hv⟩) :=
      List.getElem?_eq_getElem (h v hv)
    simp [ha, hnone v hv]
  · intro a v
    refine ⟨rfl, rfl, rfl, fun hs => ?_⟩
    show envelope_level v.env_stage v.env_phase v.release_start_level a = a.sustain
    rw [hs]
    rfl

/-- Fixture: a voice holding in Sustain on track 0. -/
noncomputable def susVoice : Voice := ⟨0, 0xE000, 440, 0, .Sustain, 0, 0⟩

theorem C5_release_capture_witness :
    applyCommand [defaultAdsr] [susVoice] .AllNotesOff =
        some [releaseVoice defaultAdsr susVoice] ∧
      (releaseVoice defaultAdsr susVoice).release_start_level = 7 / 10 ∧
      (releaseVoice defaultAdsr susVoice).env_stage = .Release := by
  have h : ∀ v ∈ [susVoice], v.track < ([defaultAdsr] : List Adsr).length := by
    intro v hv
    rw [List.mem_singleton] at hv
    rw [hv]
    exact Nat.zero_lt_one
  have hc := C5_release_capture [defaultAdsr] [susVoice] 0 0xE000 h
  refine ⟨?_, ?_, (hc.2.2.2 defaultAdsr susVoice).1⟩
  · rw [hc.2.1]
    rfl
  · exact ((hc.2.2.2 defaultAdsr susVoice).2.2.2) rfl

/-! ## C6: out-of-range track commands -/

/-- Fixture: the voice pushed by a NoteOn addressed to track 1 of an engine that
has a single instrument (only track 0 exists). -/
noncomputable def rogueVoice : Voice := freshVoice 1 0xE000 440

/-- C6 (out-of-range track safety, violated by the code): on an engine created
with one Adsr (track count 1), a NoteOn addressed to track 1 is **not** a no-op
— it pushes a voice with track index 1 — and the very next rendered sample then
indexes the per-track Adsr list out of bounds, a Rust panic (modelled `none`). -/
theorem C6_out_of_range_track :
    applyCommand [defaultAdsr] [] (.NoteOn 1 0xE000 440) = some [rogueVoice] ∧
      [rogueVoice] ≠ ([] : List Voice) ∧
      renderSample [defaultAdsr] 44100 [rogueVoice] = none := by
  refine ⟨rfl, ?_, rfl⟩
  intro hcontra
  exact List.cons_ne_nil _ _ hcontra

/-! ## C8: retrigger keeps the oscillator phase -/

/-- C8 (retrigger phase continuity): if position `i` holds the first live voice
matching (track, key), then NoteOn with that (track, key) replaces exactly that
voice by its in-place retrigger — envelope restarted in Attack with
stage-elapsed 0, frequency updated — and the retriggered voice's oscillator
phase equals the phase immediately before. -/
theorem C8_retrigger_phase (adsrs : List Adsr) (track key : ℕ) (freq : ℝ) :
    ∀ (voices : List Voice) (i : ℕ) (v : Voice),
      voices[i]? = some v → v.track = track → v.key = key →
      (∀ j, j < i → ∀ w, voices[j]? = some w → ¬(w.track = track ∧ w.key = key)) →
      applyCommand adsrs voices (.NoteOn track key freq) =
          some (voices.set i (retrigger freq v)) ∧
        (retrigger freq v).phase = v.phase ∧
        (retrigger freq v).env_stage = .Attack ∧
        (retrigger freq v).env_phase = 0 ∧
        (retrigger freq v).freq = freq := by
  intro voices
  induction voices with
  | nil =>
    intro i v hv
    simp at hv
  | cons u us ih =>
    intro i v hv ht hk hfirst
    cases i with
    | zero =>
      rw [List.getElem?_cons_zero, Option.some_inj] at hv
      subst hv
      refine ⟨?_, rfl, rfl, rfl, rfl⟩
      show some (noteOnVoices track key freq (u :: us)) = _
      rw [noteOnVoices, if_pos ⟨ht, hk⟩, List.set_cons_zero]
    | succ i =>
      rw [List.getElem?_cons_succ] at hv
      have hu : ¬(u.track = track ∧ u.key = key) :=
        hfirst 0 (Nat.succ_pos i) u (by rw [List.getElem?_cons_zero])
      have hrec := ih i v hv ht hk fun j hj w hw =>
        hfirst (j + 1) (by omega) w (by rw [List.getElem?_cons_succ]; exact hw)
      refine ⟨?_, hrec.2⟩
      show some (noteOnVoices track key freq (u :: us)) = _
      rw [noteOnVoices, if_neg hu, List.set_cons_succ]
      have h1 : some (noteOnVoices track key freq us) = some (us.set i (retrigger freq v)) :=
        hrec.1
      rw [Option.some_inj] at h1
      rw [h1]

theorem C8_retrigger_phase_witness :
    applyCommand [defaultAdsr] [susVoice] (.NoteOn 0 0xE000 880) =
        some [retrigger 880 susVoice] ∧
      (retrigger 880 susVoice).phase = susVoice.phase := by
  have hc := C8_retrigger_phase [defaultAdsr] 0 0xE000 880 [susVoice] 0 susVoice rfl rfl rfl
    (fun j hj w hw => absurd hj (by omega))
  exact ⟨hc.1, hc.2.1⟩

/-! ## C7: per-sample oscillator advance -/

/-- Fixture: ADSR with a one-second attack (level crosses the cut-off slowly). -/
def gateAdsr : Adsr := ⟨1, 1 / 10, 7 / 10, 1 / 4⟩

/-- Fixture: an Attack-stage voice at oscillator phase 3/10. -/
noncomputable def gateVoice : Voice := ⟨0, 0xE000, 440, 3 / 10, .Attack, 0, 0⟩

/-- Envelope level of a voice after one per-sample envelope step. -/
noncomputable def steppedLevel (a : Adsr) (sampleRate : ℚ) (v : Voice) : ℚ :=
  envelope_level (stepEnvelope a (1 / sampleRate) v).env_stage
    (stepEnvelope a (1 / sampleRate) v).env_phase
    (stepEnvelope a (1 / sampleRate) v).release_start_level a

/-- Oscillator phase advance by freq/sample-rate with wrap at 1
(src/synth.rs, the `voice.phase += ...; if voice.phase >= 1.0` lines). -/
noncomputable def advancePhase (sampleRate : ℚ) (v : Voice) : Voice :=
  { v with phase :=
      if 1 ≤ v.phase + v.freq / (sampleRate : ℝ) then v.phase + v.freq / (sampleRate : ℝ) - 1
      else v.phase + v.freq / (sampleRate : ℝ) }

theorem renderVoice_eq (adsrs : List Adsr) (sampleRate : ℚ) (v : Voice) (a : Adsr)
    (ha : adsrs[v.track]? = some a) :
    renderVoice adsrs sampleRate v =
      if 1 / 10000 < steppedLevel a sampleRate v then
        some (advancePhase sampleRate (stepEnvelope a (1 / sampleRate) v),
          Real.sin ((stepEnvelope a (1 / sampleRate) v).phase * (2 * Real.pi)) * PEAK_AMP *
            ((steppedLevel a sampleRate v : ℚ) : ℝ))
      else some (stepEnvelope a (1 / sampleRate) v, 0) := by
  rw [renderVoice, ha]
  rfl

/-- C7 counterexample: at sample rate 100000 the first envelope step of the
non-Idle `gateVoice` yields level 1/100000 which is below the code's 0.0001
cut-off, so the sample loop leaves the oscillator phase unchanged and
contributes 0 — refuting the claim that every active voice's phase advances
by freq/sample-rate on every sample (the claimed nonzero advance would be
440/100000). -/
theorem C7_counterexample :
    renderVoice [gateAdsr] 100000 gateVoice =
        some ((⟨0, 0xE000, 440, 3 / 10, .Attack, 1 / 100000, 0⟩ : Voice), 0) ∧
      (⟨0, 0xE000, 440, 3 / 10, .Attack, 1 / 100000, 0⟩ : Voice).phase = gateVoice.phase ∧
      gateVoice.freq / ((100000 : ℚ) : ℝ) ≠ 0 := by
  refine ⟨?_, rfl, ?_⟩
  · rw [renderVoice_eq [gateAdsr] 100000 gateVoice gateAdsr rfl,
      if_neg (by norm_num [steppedLevel, stepEnvelope, envelope_level, gateVoice, gateAdsr])]
    norm_num [stepEnvelope, gateVoice, gateAdsr]
  · show (440 : ℝ) / ((100000 : ℚ) : ℝ) ≠ 0
    norm_num

theorem renderVoicesLoop_eq (adsrs : List Adsr) (sampleRate : ℚ) :
    ∀ (voices : List Voice) (acc : ℝ),
      renderVoicesLoop adsrs sampleRate voices acc =
        (voices.mapM (renderVoice adsrs sampleRate)).map fun l =>
          (l.map Prod.fst, acc + (l.map Prod.snd).sum) := by
  intro voices
  induction voices with
  | nil =>
    intro acc
    show some ([], acc) = Option.map _ (some [])
    simp
  | cons v vs ih =>
    intro acc
    rw [List.mapM_cons]
    show (match renderVoice adsrs sampleRate v with
        | none => none
        | some (v1, contrib) =>
          Option.map (fun r : List Voice × ℝ => (v1 :: r.1, r.2))
            (renderVoicesLoop adsrs sampleRate vs (acc + contrib))) = _
    cases hv : renderVoice adsrs sampleRate v with
    | none => rfl
    | some r =>
      obtain ⟨v1, contrib⟩ := r
      show Option.map (fun r : List Voice × ℝ => (v1 :: r.1, r.2))
          (renderVoicesLoop adsrs sampleRate vs (acc + contrib)) = _
      rw [ih (acc + contrib)]
      cases hvs : vs.mapM (renderVoice adsrs sampleRate) with
      | none => rfl
      | some l =>
        show some (v1 :: l.map Prod.fst, acc + contrib + (l.map Prod.snd).sum) =
          some (((v1, contrib) :: l).map Prod.fst,
            acc + (((v1, contrib) :: l).map Prod.snd).sum)
        simp only [List.map_cons, List.sum_cons]
        refine congrArg some (Prod.ext rfl ?_)
        show acc + contrib + (l.map Prod.snd).sum = acc + (contrib + (l.map Prod.snd).sum)
        ring

/-- C7 amended (per-sample oscillator advance with the level cut-off): a
rendered sample processes each voice independently — envelope advanced by one
`1/sample-rate` step — sums all contributions without gain normalization and
then retires Idle voices; a voice whose post-step envelope level exceeds 0.0001
contributes `sin(2π·phase)·PEAK_AMP·level` and has its phase advanced by
freq/sample-rate wrapping at 1, while a voice at level ≤ 0.0001 contributes 0
and keeps its phase unchanged. -/
theorem C7_per_sample_advance (adsrs : List Adsr) (sampleRate : ℚ) :
    (∀ voices : List Voice,
        renderSample adsrs sampleRate voices =
          (voices.mapM (renderVoice adsrs sampleRate)).map fun l =>
            ((l.map Prod.fst).filter (fun v => v.env_stage ≠ .Idle),
              (l.map Prod.snd).sum)) ∧
      ∀ (v : Voice) (a : Adsr), adsrs[v.track]? = some a →
        (1 / 10000 < steppedLevel a sampleRate v →
            renderVoice adsrs sampleRate v =
              some (advancePhase sampleRate (stepEnvelope a (1 / sampleRate) v),
                Real.sin ((stepEnvelope a (1 / sampleRate) v).phase * (2 * Real.pi)) *
                  PEAK_AMP * ((steppedLevel a sampleRate v : ℚ) : ℝ))) ∧
          (steppedLevel a sampleRate v ≤ 1 / 10000 →
            renderVoice adsrs sampleRate v = some (stepEnvelope a (1 / sampleRate) v, 0)) := by
  constructor
  · intro voices
    rw [renderSample, renderVoicesLoop_eq]
    cases hm : voices.mapM (renderVoice adsrs sampleRate) with
    | none => rfl
    | some l =>
      simp only [Option.map_some']
      refine congrArg some (Prod.ext rfl ?_)
      show (0 : ℝ) + (l.map Prod.snd).sum = (l.map Prod.snd).sum
      ring
  · intro v a ha
    rw [renderVoice_eq adsrs sampleRate v a ha]
    constructor
    · intro hlt
      rw [if_pos hlt]
    · intro hle
      rw [if_neg (not_lt.mpr hle)]

theorem C7_per_sample_advance_witness :
    renderVoice [defaultAdsr] 100 susVoice =
      some (advancePhase 100 (stepEnvelope defaultAdsr (1 / 100) susVoice),
        Real.sin ((stepEnvelope defaultAdsr (1 / 100) susVoice).phase * (2 * Real.pi)) *
          PEAK_AMP * ((steppedLevel defaultAdsr 100 susVoice : ℚ) : ℝ)) :=
  ((C7_per_sample_advance [defaultAdsr] 100).2 susVoice defaultAdsr rfl).1
    (by norm_num [steppedLevel, stepEnvelope, envelope_level, susVoice, defaultAdsr])

/-! ## C10: no Idle voice survives in the pool -/

theorem mapM_some_cons {α β : Type} (f : α → Option β) (x : α) (xs : List α) (l : List β)
    (h : (x :: xs).mapM f = some l) :
    ∃ y ys, f x = some y ∧ xs.mapM f = some ys ∧ l = y :: ys := by
  rw [List.mapM_cons] at h
  cases hfx : f x with
  | none =>
    rw [hfx] at h
    simp at h
  | some y =>
    rw [hfx] at h
    cases hxs : xs.mapM f with
    | none =>
      rw [hxs] at h
      simp at h
    | some ys =>
      rw [hxs] at h
      simp at h
      exact ⟨y, ys, rfl, rfl, h.symm⟩

theorem noteOffVoice_cases (adsrs : List Adsr) (track key : ℕ) (v y : Voice)
    (h : noteOffVoice adsrs track key v = some y) :
    y = v ∨ ∃ a, y = releaseVoice a v := by
  rw [noteOffVoice] at h
  by_cases hc : v.track = track ∧ v.key = key ∧ v.env_stage ≠ .Idle
  · rw [if_pos hc] at h
    cases ha : adsrs[v.track]? with
    | none =>
      rw [ha] at h
      simp at h
    | some a =>
      rw [ha] at h
      simp at h
      exact Or.inr ⟨a, h.symm⟩
  · rw [if_neg hc] at h
    simp at h
    exact Or.inl h.symm

theorem allOffVoice_cases (adsrs : List Adsr) (v y : Voice)
    (h : allOffVoice adsrs v = some y) :
    y = v ∨ ∃ a, y = releaseVoice a v := by
  rw [allOffVoice] at h
  by_cases hc : v.env_stage ≠ .Idle
  · rw [if_pos hc] at h
    cases ha : adsrs[v.track]? with
    | none =>
      rw [ha] at h
      simp at h
    | some a =>
      rw [ha] at h
      simp at h
      exact Or.inr ⟨a, h.symm⟩
  · rw [if_neg hc] at h
    simp at h
    exact Or.inl h.symm

theorem mapM_releaseLike_nonIdle {f : Voice → Option Voice}
    (hcases : ∀ v y, f v = some y → y = v ∨ ∃ a, y = releaseVoice a v) :
    ∀ (voices vs' : List Voice), voices.mapM f = some vs' →
      (∀ v ∈ voices, v.env_stage ≠ .Idle) → ∀ v ∈ vs', v.env_stage ≠ .Idle := by
  intro voices
  induction voices with
  | nil =>
    intro vs' hm _
    rw [show ([] : List Voice).mapM f = some [] from rfl, Option.some_inj] at hm
    rw [← hm]
    intro v hv
    simp at hv
  | cons u us ih =>
    intro vs' hm hall
    obtain ⟨y, ys, hy, hys, rfl⟩ := mapM_some_cons f u us vs' hm
    intro v hv
    rcases List.mem_cons.mp hv with rfl | hvys
    · rcases hcases u v hy with h1 | ⟨a, h1⟩
      · rw [h1]
        exact hall u (List.mem_cons_self u us)
      · rw [h1]
        intro hcontra
        exact EnvStage.noConfusion hcontra
    · exact ih ys hys (fun w hw => hall w (List.mem_cons_of_mem u hw)) v hvys

theorem noteOnVoices_nonIdle (track key : ℕ) (freq : ℝ) :
    ∀ voices : List Voice, (∀ v ∈ voices, v.env_stage ≠ .Idle) →
      ∀ v ∈ noteOnVoices track key freq voices, v.env_stage ≠ .Idle := by
  intro voices
  induction voices with
  | nil =>
    intro _ v hv
    rw [noteOnVoices, List.mem_singleton] at hv
    rw [hv]
    intro hcontra
    exact EnvStage.noConfusion hcontra
  | cons u us ih =>
    intro hall v hv
    rw [noteOnVoices] at hv
    by_cases hc : u.track = track ∧ u.key = key
    · rw [if_pos hc] at hv
      rcases List.mem_cons.mp hv with rfl | hvus
      · intro hcontra
        exact EnvStage.noConfusion hcontra
      · exact hall v (List.mem_cons_of_mem u hvus)
    · rw [if_neg hc] at hv
      rcases List.mem_cons.mp hv with rfl | hvus
      · exact hall v (List.mem_cons_self v us)
      · exact ih (fun w hw => hall w (List.mem_cons_of_mem u hw)) v hvus

/-- C10 (implicit pool invariant): after every rendered sample the voice pool
contains no Idle voice (unconditionally, thanks to the retain step), and every
command application, multi-sample run and command drain preserves the invariant
that only non-Idle voices remain in the pool. -/
theorem C10_pool_no_idle (adsrs : List Adsr) (sampleRate : ℚ) :
    (∀ voices voices' out, renderSample adsrs sampleRate voices = some (voices', out) →
        ∀ v ∈ voices', v.env_stage ≠ .Idle) ∧
      (∀ voices cmd voices', (∀ v ∈ voices, v.env_stage ≠ .Idle) →
        applyCommand adsrs voices cmd = some voices' →
        ∀ v ∈ voices', v.env_stage ≠ .Idle) ∧
      (∀ n voices voices' outs, (∀ v ∈ voices, v.env_stage ≠ .Idle) →
        renderSamples adsrs sampleRate n voices = some (voices', outs) →
        ∀ v ∈ voices', v.env_stage ≠ .Idle) ∧
      (∀ cmds voices voices' b, (∀ v ∈ voices, v.env_stage ≠ .Idle) →
        drainCommands adsrs cmds voices = some (voices', b) →
        ∀ v ∈ voices', v.env_stage ≠ .Idle) := by
  have hsample : ∀ voices voices' out,
      renderSample adsrs sampleRate voices = some (voices', out) →
      ∀ v ∈ voices', v.env_stage ≠ .Idle := by
    intro voices voices' out h v hv
    rw [renderSample] at h
    cases hl : renderVoicesLoop adsrs sampleRate voices 0 with
    | none =>
      rw [hl] at h
      simp at h
    | some r =>
      rw [hl] at h
      simp only [Option.map_some', Option.some_inj] at h
      have hv' : v ∈ r.1.filter (fun v => v.env_stage ≠ .Idle) := by
        rw [show voices' = r.1.filter (fun v => v.env_stage ≠ .Idle) from
          congrArg Prod.fst h.symm] at hv
        exact hv
      have := List.of_mem_filter hv'
      simpa using this
  have hcmd : ∀ voices cmd voices', (∀ v ∈ voices, v.env_stage ≠ .Idle) →
      applyCommand adsrs voices cmd = some voices' →
      ∀ v ∈ voices', v.env_stage ≠ .Idle := by
    intro voices cmd voices' hall h
    cases cmd with
    | NoteOn track key freq =>
      rw [applyCommand, Option.some_inj] at h
      rw [← h]
      exact noteOnVoices_nonIdle track key freq voices hall
    | NoteOff track key =>
      exact mapM_releaseLike_nonIdle (noteOffVoice_cases adsrs track key) voices voices' h hall
    | AllNotesOff =>
      exact mapM_releaseLike_nonIdle (fun v y => allOffVoice_cases adsrs v y) voices voices' h hall
    | Shutdown =>
      rw [applyCommand, Option.some_inj] at h
      rw [← h]
      intro v hv
      simp at hv
  refine ⟨hsample, hcmd, ?_, ?_⟩
  · intro n
    induction n with
    | zero =>
      intro voices voices' outs hall h
      rw [renderSamples, Option.some_inj] at h
      rw [show voices' = voices from congrArg Prod.fst h.symm]
      exact hall
    | succ n ih =>
      intro voices voices' outs hall h
      cases hs : renderSample adsrs sampleRate voices with
      | none =>
        rw [renderSamples, hs] at h
        exact Option.noConfusion h
      | some r =>
        obtain ⟨vs1, x⟩ := r
        have h' : (renderSamples adsrs sampleRate n vs1).map
            (fun r : List Voice × List ℝ => (r.1, x :: r.2)) = some (voices', outs) := by
          rw [← h, renderSamples, hs]
        cases hrest : renderSamples adsrs sampleRate n vs1 with
        | none =>
          rw [hrest] at h'
          exact Option.noConfusion h'
        | some r2 =>
          rw [hrest, Option.map_some', Option.some_inj] at h'
          rw [show voices' = r2.1 from congrArg Prod.fst h'.symm]
          exact ih vs1 r2.1 r2.2 (hsample voices vs1 x hs) hrest
  · intro cmds
    induction cmds with
    | nil =>
      intro voices voices' b hall h
      rw [drainCommands, Option.some_inj] at h
      rw [show voices' = voices from congrArg Prod.fst h.symm]
      exact hall
    | cons cmd cmds ih =>
      intro voices voices' b hall h
      cases cmd with
      | Shutdown =>
        rw [drainCommands, Option.some_inj] at h
        rw [show voices' = [] from congrArg Prod.fst h.symm]
        intro v hv
        simp at hv
      | NoteOn track key freq =>
        cases ha : applyCommand adsrs voices (.NoteOn track key freq) with
        | none =>
          rw [drainCommands, ha] at h
          exact Option.noConfusion h
        | some vs1 =>
          rw [drainCommands, ha] at h
          exact ih vs1 voices' b (hcmd voices _ vs1 hall ha) h
      | NoteOff track key =>
        cases ha : applyCommand adsrs voices (.NoteOff track key) with
        | none =>
          rw [drainCommands, ha] at h
          exact Option.noConfusion h
        | some vs1 =>
          rw [drainCommands, ha] at h
          exact ih vs1 voices' b (hcmd voices _ vs1 hall ha) h
      | AllNotesOff =>
        cases ha : applyCommand adsrs voices .AllNotesOff with
        | none =>
          rw [drainCommands, ha] at h
          exact Option.noConfusion h
        | some vs1 =>
          rw [drainCommands, ha] at h
          exact ih vs1 voices' b (hcmd voices _ vs1 hall ha) h

/-- Fixture: a releasing voice with zero release-start level. -/
noncomputable def relVoice : Voice := ⟨0, 0xE000, 440, 0, .Release, 0, 0⟩

theorem C10_pool_no_idle_witness :
    ({ relVoice with env_phase := 1 / 100 } : Voice).env_stage ≠ EnvStage.Idle := by
  have h1 : renderVoice [defaultAdsr] 100 relVoice =
      some ({ relVoice with env_phase := 1 / 100 }, 0) := by
    rw [renderVoice_eq [defaultAdsr] 100 relVoice defaultAdsr rfl,
      if_neg (by norm_num [steppedLevel, stepEnvelope, envelope_level, relVoice, defaultAdsr])]
    norm_num [stepEnvelope, relVoice, defaultAdsr]
  have hr : renderSample [defaultAdsr] 100 [relVoice] =
      some ([{ relVoice with env_phase := 1 / 100 }], 0) := by
    rw [renderSample, renderVoicesLoop_eq, List.mapM_cons, h1]
    show Option.map _ (Option.map _ ((some _).bind _)) = _
    rw [show List.mapM (renderVoice [defaultAdsr] 100) [] = some [] from rfl]
    simp [relVoice]
  exact (C10_pool_no_idle [defaultAdsr] 100).1 [relVoice] _ _ hr
    { relVoice with env_phase := 1 / 100 } (List.mem_singleton.mpr rfl)

/-! ## C4: voice-id aliasing of simultaneously sounding notes -/

/-- The (track, voice id) of a NoteOn command, `none` for anything else. -/
def onTrackKey (e : ScheduledEvent) : Option (ℕ × ℕ) :=
  match e.command with
  | .NoteOn t k _ => some (t, k)
  | _ => none

/-- Two schedule entries never alias: if both are NoteOns of the same track and
their sounding intervals (one beat from each onset) strictly overlap, their
voice ids differ. -/
def noOverlapAlias (e1 e2 : ScheduledEvent) : Prop :=
  ∀ t k1 k2, onTrackKey e1 = some (t, k1) → onTrackKey e2 = some (t, k2) →
    |e1.beat - e2.beat| < 1 → k1 ≠ k2

theorem noOverlapAlias_symm : Symmetric noOverlapAlias := by
  intro e1 e2 h t k1 k2 h1 h2 habs
  have := h t k2 k1 h2 h1 (by rw [abs_sub_comm]; exact habs)
  exact fun he => this he.symm

/-- All NoteOns in `l` lie on `track` with onset in `[lo, hi - 1]`. -/
def NoteOnsIn (track : ℕ) (lo hi : ℚ) (l : List ScheduledEvent) : Prop :=
  ∀ e ∈ l, ∀ t k, onTrackKey e = some (t, k) → t = track ∧ lo ≤ e.beat ∧ e.beat + 1 ≤ hi

/-- All NoteOns in `l` carry keys allocated from counters in `[cLo, cHi)`. -/
def KeysIn (cLo cHi : ℕ) (l : List ScheduledEvent) : Prop :=
  ∀ e ∈ l, ∀ t k, onTrackKey e = some (t, k) → ∃ m, cLo ≤ m ∧ m < cHi ∧ k = voiceKey m

theorem NoteOnsIn.mono {track : ℕ} {lo hi lo' hi' : ℚ} {l : List ScheduledEvent}
    (h : NoteOnsIn track lo hi l) (hlo : lo' ≤ lo) (hhi : hi ≤ hi') :
    NoteOnsIn track lo' hi' l := by
  intro e he t k hk
  obtain ⟨h1, h2, h3⟩ := h e he t k hk
  exact ⟨h1, le_trans hlo h2, le_trans h3 hhi⟩

theorem NoteOnsIn.append {track : ℕ} {lo hi : ℚ} {l1 l2 : List ScheduledEvent}
    (h1 : NoteOnsIn track lo hi l1) (h2 : NoteOnsIn track lo hi l2) :
    NoteOnsIn track lo hi (l1 ++ l2) := by
  intro e he
  rcases List.mem_append.mp he with he' | he'
  · exact h1 e he'
  · exact h2 e he'

theorem voiceKey_injOn (c1 c2 : ℕ) (h1 : c1 < 512) (h2 : c2 < 512) (hne : c1 ≠ c2) :
    voiceKey c1 ≠ voiceKey c2 := by
  intro h
  rw [voiceKey, voiceKey] at h
  omega

theorem voiceKey_ne_of_window (m1 m2 : ℕ) (hlt : m1 < m2) (hw : m2 - m1 < 512) :
    voiceKey m1 ≠ voiceKey m2 := by
  intro h
  rw [voiceKey, voiceKey] at h
  omega

/-- Separated emissions satisfy the no-alias relation pairwise across the join:
if every NoteOn of `l1` ends no later than every NoteOn of `l2` starts, no pair
across them can strictly overlap. -/
theorem noOverlapAlias_of_separated {l1 l2 : List ScheduledEvent} {track : ℕ}
    {lo1 mid hi2 : ℚ}
    (h1 : NoteOnsIn track lo1 mid l1) (h2 : NoteOnsIn track mid hi2 l2) :
    ∀ e1 ∈ l1, ∀ e2 ∈ l2, noOverlapAlias e1 e2 := by
  intro e1 he1 e2 he2 t k1 k2 hk1 hk2 habs
  obtain ⟨-, -, hb1⟩ := h1 e1 he1 t k1 hk1
  obtain ⟨-, hb2, -⟩ := h2 e2 he2 t k2 hk2
  have : e2.beat - e1.beat ≤ |e1.beat - e2.beat| := by
    rw [abs_sub_comm]
    exact le_abs_self _
  linarith

theorem noteOnOff_noteOnsIn (track : ℕ) (beat : ℚ) (c : ℕ) (n : NoteEvent) :
    NoteOnsIn track beat (beat + 1) (noteOnOff track beat c n) := by
  intro e he t k hk
  rcases List.mem_cons.mp he with rfl | he'
  · have hk' : some (track, voiceKey c) = some (t, k) := hk
    injection hk' with hpair
    exact ⟨(congrArg Prod.fst hpair).symm, le_refl _, le_refl _⟩
  · rcases List.mem_singleton.mp he' with rfl
    exact absurd hk (fun hx => Option.noConfusion hx)

theorem noteOnOff_keysIn (track : ℕ) (beat : ℚ) (c : ℕ) (n : NoteEvent) :
    KeysIn c (c + 1) (noteOnOff track beat c n) := by
  intro e he t k hk
  rcases List.mem_cons.mp he with rfl | he'
  · have hk' : some (track, voiceKey c) = some (t, k) := hk
    injection hk' with hpair
    exact ⟨c, le_refl c, by omega, (congrArg Prod.snd hpair).symm⟩
  · rcases List.mem_singleton.mp he' with rfl
    exact absurd hk (fun hx => Option.noConfusion hx)

theorem noteOnOff_pairwise (track : ℕ) (beat : ℚ) (c : ℕ) (n : NoteEvent) :
    List.Pairwise noOverlapAlias (noteOnOff track beat c n) := by
  refine List.Pairwise.cons ?_ (List.pairwise_singleton _ _)
  intro e he
  rcases List.mem_singleton.mp he with rfl
  intro t k1 k2 _ hk2
  exact absurd hk2 (fun hx => Option.noConfusion hx)

theorem chord_noteOnsIn (track : ℕ) (beat : ℚ) :
    ∀ (ns : List NoteEvent) (c : ℕ),
      NoteOnsIn track beat (beat + 1) (chordCommandsC track beat ns c).1 := by
  intro ns
  induction ns with
  | nil =>
    intro c e he
    simp [chordCommandsC] at he
  | cons n ns ih =>
    intro c
    rw [chordCommandsC]
    exact (noteOnOff_noteOnsIn track beat c n).append (ih (c + 1))

theorem chord_keysIn (track : ℕ) (beat : ℚ) :
    ∀ (ns : List NoteEvent) (c : ℕ),
      KeysIn c (c + ns.length) (chordCommandsC track beat ns c).1 := by
  intro ns
  induction ns with
  | nil =>
    intro c e he
    simp [chordCommandsC] at he
  | cons n ns ih =>
    intro c e he t k hk
    rw [chordCommandsC] at he
    rcases List.mem_append.mp he with he' | he'
    · obtain ⟨m, hm1, hm2, hm3⟩ := noteOnOff_keysIn track beat c n e he' t k hk
      exact ⟨m, hm1, by simp only [List.length_cons]; omega, hm3⟩
    · obtain ⟨m, hm1, hm2, hm3⟩ := ih (c + 1) e he' t k hk
      exact ⟨m, by omega, by simp only [List.length_cons]; omega, hm3⟩

theorem chord_pairwise (track : ℕ) (beat : ℚ) :
    ∀ (ns : List NoteEvent) (c : ℕ), ns.length ≤ 512 →
      List.Pairwise noOverlapAlias (chordCommandsC track beat ns c).1 := by
  intro ns
  induction ns with
  | nil =>
    intro c _
    rw [chordCommandsC]
    exact List.Pairwise.nil
  | cons n ns ih =>
    intro c hlen
    rw [chordCommandsC]
    rw [List.pairwise_append]
    refine ⟨noteOnOff_pairwise track beat c n,
      ih (c + 1) (by simp only [List.length_cons] at hlen; omega), ?_⟩
    intro e1 he1 e2 he2 t k1 k2 hk1 hk2 _
    obtain ⟨m1, hm11, hm12, hm13⟩ := noteOnOff_keysIn track beat c n e1 he1 t k1 hk1
    obtain ⟨m2, hm21, hm22, hm23⟩ := chord_keysIn track beat ns (c + 1) e2 he2 t k2 hk2
    rw [hm13, hm23]
    refine voiceKey_ne_of_window m1 m2 (by omega) ?_
    simp only [List.length_cons] at hlen
    omega

/-- All events of a pattern have nonnegative durations (rests nonnegative). -/
def dursNonneg (evs : List Event) : Prop :=
  ∀ ev ∈ evs, 0 ≤ event_duration ev

/-- Every chord among the events has at most 512 constituent notes. -/
def chordsBounded (evs : List Event) : Prop :=
  ∀ ns : List NoteEvent, Event.Chord ns ∈ evs → ns.length ≤ 512

theorem durSum_nonneg {evs : List Event} (hd : dursNonneg evs) :
    0 ≤ (evs.map event_duration).sum := by
  refine List.sum_nonneg ?_
  intro x hx
  obtain ⟨y, hy, rfl⟩ := List.mem_map.mp hx
  exact hd y hy

theorem event_noteOnsIn (track : ℕ) (beat : ℚ) (c : ℕ) (ev : Event) :
    NoteOnsIn track beat (beat + event_duration ev) (eventCommandsC track beat c ev).1 := by
  cases ev with
  | Note n => exact noteOnOff_noteOnsIn track beat c n
  | Chord ns => exact chord_noteOnsIn track beat ns c
  | Rest b =>
    intro e he
    simp [eventCommandsC] at he
  | BarLine =>
    intro e he
    simp [eventCommandsC] at he

theorem event_pairwise (track : ℕ) (beat : ℚ) (c : ℕ) (ev : Event)
    (h : ∀ ns : List NoteEvent, ev = Event.Chord ns → ns.length ≤ 512) :
    List.Pairwise noOverlapAlias (eventCommandsC track beat c ev).1 := by
  cases ev with
  | Note n => exact noteOnOff_pairwise track beat c n
  | Chord ns => exact chord_pairwise track beat ns c (h ns rfl)
  | Rest b => exact List.Pairwise.nil
  | BarLine => exact List.Pairwise.nil

theorem walkEvents_good (track : ℕ) :
    ∀ (evs : List Event) (tb eb : ℚ) (c : ℕ), dursNonneg evs → chordsBounded evs →
      NoteOnsIn track (tb + eb) (tb + eb + (evs.map event_duration).sum)
          (walkEvents track tb evs eb c).1 ∧
        List.Pairwise noOverlapAlias (walkEvents track tb evs eb c).1 := by
  intro evs
  induction evs with
  | nil =>
    intro tb eb c _ _
    constructor
    · intro e he
      simp [walkEvents] at he
    · exact List.Pairwise.nil
  | cons ev evs ih =>
    intro tb eb c hd hc
    have hd0 : 0 ≤ event_duration ev := hd ev (List.mem_cons_self ev evs)
    have hd' : dursNonneg evs := fun x hx => hd x (List.mem_cons_of_mem ev hx)
    have hc' : chordsBounded evs := fun ns hns => hc ns (List.mem_cons_of_mem ev hns)
    have hdsum : 0 ≤ (evs.map event_duration).sum := durSum_nonneg hd'
    have hhead := event_noteOnsIn track (tb + eb) c ev
    have hheadP := event_pairwise track (tb + eb) c ev
      (fun ns hns => hc ns (by rw [← hns]; exact List.mem_cons_self ev evs))
    have htail := ih tb (eb + event_duration ev) (eventCommandsC track (tb + eb) c ev).2 hd' hc'
    constructor
    · show NoteOnsIn track (tb + eb) (tb + eb + ((ev :: evs).map event_duration).sum)
        ((eventCommandsC track (tb + eb) c ev).1 ++
          (walkEvents track tb evs (eb + event_duration ev)
            (eventCommandsC track (tb + eb) c ev).2).1)
      simp only [List.map_cons, List.sum_cons]
      refine NoteOnsIn.append (hhead.mono (le_refl _) (by linarith))
        (htail.1.mono (by linarith) (by linarith))
    · show List.Pairwise noOverlapAlias
        ((eventCommandsC track (tb + eb) c ev).1 ++
          (walkEvents track tb evs (eb + event_duration ev)
            (eventCommandsC track (tb + eb) c ev).2).1)
      rw [List.pairwise_append]
      refine ⟨hheadP, htail.2, ?_⟩
      exact noOverlapAlias_of_separated hhead
        (htail.1.mono (by linarith) (le_refl _))

theorem walkReps_good (track : ℕ) (p : Pattern) (hd : dursNonneg p.events)
    (hc : chordsBounded p.events) :
    ∀ (k : ℕ) (tb : ℚ) (c : ℕ),
      NoteOnsIn track tb (tb + p.length_beats * (k : ℚ)) (walkReps track p k tb c).1 ∧
        List.Pairwise noOverlapAlias (walkReps track p k tb c).1 := by
  have hlen : 0 ≤ p.length_beats := durSum_nonneg hd
  intro k
  induction k with
  | zero =>
    intro tb c
    constructor
    · intro e he
      simp [walkReps] at he
    · exact List.Pairwise.nil
  | succ k ih =>
    intro tb c
    have hhead := walkEvents_good track p.events tb 0 c hd hc
    have hh1 : NoteOnsIn track tb (tb + p.length_beats) (walkEvents track tb p.events 0 c).1 := by
      refine hhead.1.mono (by linarith) (le_of_eq ?_)
      rw [Pattern.length_beats]
      ring
    have htail := ih (tb + p.length_beats) (walkEvents track tb p.events 0 c).2
    have hkq : (0 : ℚ) ≤ (k : ℚ) := Nat.cast_nonneg k
    have hmul : 0 ≤ p.length_beats * (k : ℚ) := mul_nonneg hlen hkq
    constructor
    · show NoteOnsIn track tb (tb + p.length_beats * ((k + 1 : ℕ) : ℚ))
        ((walkEvents track tb p.events 0 c).1 ++
          (walkReps track p k (tb + p.length_beats) (walkEvents track tb p.events 0 c).2).1)
      refine NoteOnsIn.append (hh1.mono (le_refl _) (by push_cast; nlinarith))
        (htail.1.mono (by linarith) (le_of_eq (by push_cast; ring)))
    · show List.Pairwise noOverlapAlias
        ((walkEvents track tb p.events 0 c).1 ++
          (walkReps track p k (tb + p.length_beats) (walkEvents track tb p.events 0 c).2).1)
      rw [List.pairwise_append]
      exact ⟨hhead.2, htail.2, noOverlapAlias_of_separated hh1 htail.1⟩

/-- Every pattern the map can return has nonnegative rests and chords of at most
512 notes. -/
def patsGood (pats : Patterns) : Prop :=
  ∀ path pat, pats path = some pat → dursNonneg pat.events ∧ chordsBounded pat.events

theorem walkSegments_good (track : ℕ) (pats : Patterns) (hp : patsGood pats) :
    ∀ (segs : List Segment) (tb : ℚ) (c : ℕ) (out : List ScheduledEvent × ℚ × ℕ),
      walkSegments track pats segs tb c = .ok out →
      NoteOnsIn track tb out.2.1 out.1 ∧ List.Pairwise noOverlapAlias out.1 ∧ tb ≤ out.2.1 := by
  intro segs
  induction segs with
  | nil =>
    intro tb c out h
    have h' : (Except.ok ([], tb, c) : Except String (List ScheduledEvent × ℚ × ℕ)) = .ok out := h
    injection h' with h''
    rw [← h'']
    refine ⟨?_, List.Pairwise.nil, le_refl tb⟩
    intro e he
    simp at he
  | cons seg rest ih =>
    intro tb c out h
    cases hpp : pats seg.notes_path with
    | none =>
      rw [walkSegments, hpp] at h
      exact Except.noConfusion h
    | some p =>
      obtain ⟨hdp, hcp⟩ := hp seg.notes_path p hpp
      have hlen : 0 ≤ p.length_beats := durSum_nonneg hdp
      have htimes : (0 : ℚ) ≤ (seg.times : ℚ) := Nat.cast_nonneg _
      have hmul : 0 ≤ p.length_beats * (seg.times : ℚ) := mul_nonneg hlen htimes
      rw [walkSegments, hpp] at h
      have h2 : Except.map
          (fun tail : List ScheduledEvent × ℚ × ℕ =>
            ((walkReps track p seg.times tb c).1 ++ tail.1, tail.2))
          (walkSegments track pats rest (walkReps track p seg.times tb c).2.1
            (walkReps track p seg.times tb c).2.2) = Except.ok out := h
      cases hrec : walkSegments track pats rest (walkReps track p seg.times tb c).2.1
          (walkReps track p seg.times tb c).2.2 with
      | error e =>
        rw [hrec] at h2
        exact Except.noConfusion h2
      | ok tail =>
        rw [hrec] at h2
        have h' : (Except.ok ((walkReps track p seg.times tb c).1 ++ tail.1, tail.2) :
            Except String (List ScheduledEvent × ℚ × ℕ)) = .ok out := h2
        injection h' with h''
        rw [← h'']
        obtain ⟨ht1, ht2, ht3⟩ := ih _ _ tail hrec
        have heq2 : (walkReps track p seg.times tb c).2.1 = tb + p.length_beats * (seg.times : ℚ) := by
          rw [walkReps_eq]
        rw [heq2] at ht1 ht3
        have hrep := walkReps_good track p hdp hcp seg.times tb c
        refine ⟨?_, ?_, by linarith⟩
        · exact NoteOnsIn.append (hrep.1.mono (le_refl _) (by linarith))
            (ht1.mono (by linarith) (le_refl _))
        · rw [List.pairwise_append]
          exact ⟨hrep.2, ht2, noOverlapAlias_of_separated hrep.1 ht1⟩

theorem walkTracks_good (pats : Patterns) (hp : patsGood pats) :
    ∀ (ts : List SongTrack) (idx : ℕ) (out : List ScheduledEvent),
      walkTracks pats idx ts = .ok out →
      List.Pairwise noOverlapAlias out ∧
        ∀ e ∈ out, ∀ t k, onTrackKey e = some (t, k) → idx ≤ t := by
  intro ts
  induction ts with
  | nil =>
    intro idx out h
    have h' : (Except.ok [] : Except String (List ScheduledEvent)) = .ok out := h
    injection h' with h''
    rw [← h'']
    refine ⟨List.Pairwise.nil, ?_⟩
    intro e he
    simp at he
  | cons t ts ih =>
    intro idx out h
    cases hseg : walkSegments idx pats t.sequence 0 0 with
    | error e =>
      rw [walkTracks, hseg] at h
      exact Except.noConfusion h
    | ok here =>
      cases htail : walkTracks pats (idx + 1) ts with
      | error e =>
        rw [walkTracks, hseg, htail] at h
        exact Except.noConfusion h
      | ok tail =>
        rw [walkTracks, hseg, htail] at h
        have h' : (Except.ok (here.1 ++ tail) : Except String (List ScheduledEvent)) = .ok out := h
        injection h' with h''
        rw [← h'']
        obtain ⟨hs1, hs2, -⟩ := walkSegments_good idx pats hp t.sequence 0 0 here hseg
        obtain ⟨htp, hti⟩ := ih (idx + 1) tail htail
        constructor
        · rw [List.pairwise_append]
          refine ⟨hs2, htp, ?_⟩
          intro e1 he1 e2 he2 tt k1 k2 hk1 hk2 habs
          have h1 := (hs1 e1 he1 tt k1 hk1).1
          have h2 := hti e2 he2 tt k2 hk2
          omega
        · intro e he tt k hk
          rcases List.mem_append.mp he with he' | he'
          · exact le_of_eq (hs1 e he' tt k hk).1.symm
          · exact le_trans (by omega) (hti e he' tt k hk)

/-- C4 amended (voice-id non-aliasing under the chord-size bound): the id space
holds 512 distinct identifiers per track (the counter-to-key map is injective on
any 512-counter window), and — provided every resolved pattern has nonnegative
rest durations and no chord of more than 512 notes — any two NoteOn commands of
a returned schedule on the same track whose one-beat sounding intervals
strictly overlap carry distinct voice ids.  (Without the chord bound this
fails: a 513-note chord aliases two simultaneous voices, see the
counterexample.) -/
theorem C4_voice_id_aliasing (song : Song) (pats : Patterns) (hp : patsGood pats)
    (sched : List ScheduledEvent) (h : build_schedule song pats = .ok sched) :
    (∀ c1 c2 : ℕ, c1 < 512 → c2 < 512 → c1 ≠ c2 → voiceKey c1 ≠ voiceKey c2) ∧
      List.Pairwise noOverlapAlias sched := by
  refine ⟨voiceKey_injOn, ?_⟩
  cases hes : buildScheduleEvents song pats with
  | error e =>
    rw [build_schedule, hes] at h
    exact Except.noConfusion h
  | ok es =>
    rw [build_schedule, hes] at h
    have h' : (Except.ok (sortEvents es) : Except String (List ScheduledEvent)) = .ok sched := h
    injection h' with h''
    rw [← h'']
    have hperm : List.Perm (sortEvents es) es := List.perm_insertionSort _ es
    have hes' := (walkTracks_good pats hp song.tracks 0 es hes).1
    exact (List.Perm.pairwise_iff (fun {a b} hab => noOverlapAlias_symm hab) hperm).mpr hes'

/-- Fixture: the note repeated inside the large chord. -/
def bigNote : NoteEvent := ⟨.C, 4⟩

/-- Fixture: a pattern holding a single 513-note chord. -/
def bigChordPat : Pattern := ⟨[.Chord (List.replicate 513 bigNote)]⟩

/-- Fixture: a one-track song playing the big chord once. -/
def bigSong : Song := ⟨120, (4, 4), [⟨"big.instr", [⟨"big.notes", 1⟩]⟩]⟩

/-- Fixture: the map resolving exactly "big.notes". -/
def bigPats : Patterns := fun s => if s = "big.notes" then some bigChordPat else none

/-- Detects a NoteOn on track 0 with voice id 0xE000 at beat `b`. -/
def aliasP (b : ℚ) (e : ScheduledEvent) : Bool :=
  decide (e.beat = b) &&
    match e.command with
    | .NoteOn t k _ => decide (t = 0) && decide (k = 0xE000)
    | _ => false

theorem countP_noteOnOff (b : ℚ) (c : ℕ) (n : NoteEvent) :
    (noteOnOff 0 b c n).countP (aliasP b) = if voiceKey c = 0xE000 then 1 else 0 := by
  by_cases hk : voiceKey c = 0xE000 <;>
    simp [noteOnOff, aliasP, List.countP_cons, hk]

theorem countP_chord (b : ℚ) :
    ∀ (k c : ℕ),
      ((chordCommandsC 0 b (List.replicate k bigNote) c).1).countP (aliasP b) =
        (List.range k).countP (fun i => decide (voiceKey (c + i) = 0xE000)) := by
  intro k
  induction k with
  | zero =>
    intro c
    simp [chordCommandsC]
  | succ k ih =>
    intro c
    rw [List.replicate_succ, chordCommandsC, List.countP_append, countP_noteOnOff,
      ih (c + 1), List.range_succ_eq_map, List.countP_cons, List.countP_map]
    have hfun : ((fun i => decide (voiceKey (c + i) = 0xE000)) ∘ Nat.succ) =
        fun i => decide (voiceKey (c + 1 + i) = 0xE000) := by
      funext i
      rw [Function.comp_apply, Nat.succ_eq_add_one,
        show c + (i + 1) = c + 1 + i from by omega]
    rw [hfun]
    simp only [Nat.add_zero]
    by_cases hk : voiceKey c = 0xE000
    · simp [hk]
      omega
    · simp [hk]

/-- The emitted list for the big-chord song. -/
noncomputable def bigEs : List ScheduledEvent :=
  ((((chordCommandsC 0 (0 + 0) (List.replicate 513 bigNote) 0).1 ++ []) ++ []) ++ []) ++ []

/-- The schedule returned for the big-chord song. -/
noncomputable def bigSched : List ScheduledEvent := sortEvents bigEs

theorem bigEs_eq : buildScheduleEvents bigSong bigPats = .ok bigEs := rfl

set_option maxRecDepth 8192 in
theorem bigSched_count : bigSched.countP (aliasP (0 + 0)) = 2 := by
  rw [bigSched, sortEvents, (List.perm_insertionSort _ bigEs).countP_eq, bigEs]
  simp only [List.countP_append, List.append_nil, countP_chord]
  decide

theorem aliasP_spec (b : ℚ) (e : ScheduledEvent) (h : aliasP b e = true) :
    e.beat = b ∧ onTrackKey e = some (0, 0xE000) := by
  obtain ⟨beat, cmd⟩ := e
  cases cmd with
  | NoteOn t k f =>
    simp [aliasP] at h
    obtain ⟨hb, ht, hk⟩ := h
    subst hb
    subst ht
    subst hk
    exact ⟨rfl, rfl⟩
  | NoteOff t k => simp [aliasP] at h
  | AllNotesOff => simp [aliasP] at h
  | Shutdown => simp [aliasP] at h

theorem aliasP_not_noOverlap (b : ℚ) (e1 e2 : ScheduledEvent)
    (h1 : aliasP b e1 = true) (h2 : aliasP b e2 = true) : ¬ noOverlapAlias e1 e2 := by
  intro hR
  obtain ⟨hb1, hk1⟩ := aliasP_spec b e1 h1
  obtain ⟨hb2, hk2⟩ := aliasP_spec b e2 h2
  exact hR 0 0xE000 0xE000 hk1 hk2 (by rw [hb1, hb2, sub_self, abs_zero]; norm_num) rfl

theorem countP_le_one_of_pairwise {R : ScheduledEvent → ScheduledEvent → Prop}
    {p : ScheduledEvent → Bool} (hnot : ∀ a b, p a = true → p b = true → ¬ R a b) :
    ∀ l : List ScheduledEvent, List.Pairwise R l → l.countP p ≤ 1 := by
  intro l
  induction l with
  | nil =>
    intro _
    simp
  | cons x xs ih =>
    intro hp
    rw [List.countP_cons]
    by_cases hx : p x = true
    · have h0 : xs.countP p = 0 := by
        rw [List.countP_eq_zero]
        intro y hy hpy
        exact hnot x y hx hpy ((List.pairwise_cons.mp hp).1 y hy)
      rw [h0]
      simp [hx]
    · have hx' : p x = false := by
        cases hpx : p x
        · rfl
        · exact absurd hpx hx
      have := ih (List.pairwise_cons.mp hp).2
      simpa [hx'] using this

/-- C4 counterexample: the claim as stated is false.  With a 513-note chord the
returned schedule contains two NoteOns on the same track at the same beat (their
one-beat sounding intervals coincide, hence strictly overlap) carrying the same
voice id 0xE000 — the counter wraps modulo 0x200 — so the schedule violates the
pairwise no-alias property. -/
theorem C4_counterexample :
    build_schedule bigSong bigPats = .ok bigSched ∧
      2 ≤ bigSched.countP (aliasP (0 + 0)) ∧
      ¬ List.Pairwise noOverlapAlias bigSched := by
  refine ⟨?_, ?_, ?_⟩
  · rw [build_schedule, bigEs_eq]
    rfl
  · rw [bigSched_count]
  · intro hPW
    have hle := countP_le_one_of_pairwise (aliasP_not_noOverlap (0 + 0)) bigSched hPW
    rw [bigSched_count] at hle
    omega

theorem C4_voice_id_aliasing_witness :
    voiceKey 0 ≠ voiceKey 1 ∧ List.Pairwise noOverlapAlias (sortEvents esFix) := by
  have hp : patsGood patsFix := by
    intro path pat hpp
    by_cases hpath : path = "a.notes"
    · simp only [patsFix, hpath, if_pos] at hpp
      rw [Option.some_inj] at hpp
      rw [← hpp]
      constructor
      · intro ev hev
        fin_cases hev <;> norm_num [event_duration]
      · intro ns hns
        simp [patFix] at hns
    · simp only [patsFix] at hpp
      rw [if_neg hpath] at hpp
      exact Option.noConfusion hpp
  have h : build_schedule songFix patsFix = .ok (sortEvents esFix) := by
    rw [build_schedule, show buildScheduleEvents songFix patsFix = .ok esFix from rfl]
    rfl
  have hc := C4_voice_id_aliasing songFix patsFix hp (sortEvents esFix) h
  exact ⟨hc.1 0 1 (by norm_num) (by norm_num) (by norm_num), hc.2⟩

end Clidaw
